import Mathlib

/-! # office-parser: table extraction from a word-processing document

A shallow embedding of `word/word.go` (package `word`) together with the
properties of its table walker, cell renderer and resolver pools.

Conventions of the embedding.

* A Go `string` is a Lean `String`; `+`, `bytes.Buffer.WriteString` and the
  `%s` verb of `fmt.Sprintf` are string concatenation.
* A Go slice that the source tests against `nil` is an `Option (List _)`:
  `none` is the nil slice, which is what the accessors of the document model
  return for a run without drawings (without objects), as the branches of
  `getCellText` presuppose; `some l` is a slice with the elements `l`.  A
  slice that the source only ranges over or measures with `len` is a
  `List _`.
* A Go map with string keys is a function `String → Option V`; `none` is an
  absent key.  Indexing yields the zero value of the element type on an
  absent key.  A `*string` is an `Option String`, `none` being the nil
  pointer; dereferencing the nil pointer panics.
* A function that can panic returns an `Option`, `none` being the panic.
-/

namespace OfficeParser

/-! ## The document model exposed by the document-package collaborator -/

/-- One element of `Run.DrawingInline()`: the relationship identifier of the
image returned by `di.GetImage()` (`imf.RelID()`), and the declared size
`di.X().Extent.Size()`. -/
structure InlineDrawing where
  relID : String
  width : String
  height : String

/-- One element of `Run.OleObjects()`, carrying `ole.OleRid()`. -/
structure OleObject where
  oleRid : String

/-- A run: the results of `r.DrawingInline()`, `r.OleObjects()` and
`r.Text()`.  A run without inline drawing has `drawingInline = none`, a run
without embedded object has `oleObjects = none`. -/
structure Run where
  drawingInline : Option (List InlineDrawing)
  oleObjects : Option (List OleObject)
  text : String

/-- A paragraph, `paragraph.Runs()`. -/
structure Paragraph where
  runs : List Run

/-- A cell, `cell.Paragraphs()`. -/
structure Cell where
  paragraphs : List Paragraph

/-- A row, `row.Cells()`. -/
structure Row where
  cells : List Cell

/-- A table, `table.Rows()`. -/
structure Table where
  rows : List Row

/-- An element of `doc.OleObjectPaths`: `Rid()` and `Path()`. -/
structure OleObjectPath where
  rid : String
  path : String

/-- An element of `doc.Images`: `RelID()`, `Path()` and `Format()`. -/
structure ImageRef where
  relID : String
  path : String
  format : String

/-- The parsed document: `doc.Tables()`, `doc.OleObjectPaths`, `doc.Images`. -/
structure Document where
  tables : List Table
  oleObjectPaths : List OleObjectPath
  images : List ImageRef

/-! ## The result structures of `word.go` -/

/-- Go `type RowData struct`. -/
structure RowData where
  Content : List String
  HtmlContent : List String

/-- Go `type TableData struct`. -/
structure TableData where
  Rows : List RowData

/-- A Go map keyed by strings. -/
abbrev GoMap (V : Type) : Type := String → Option V

/-- The map returned by `make(map[string]V)`. -/
def GoMap.empty {V : Type} : GoMap V := fun _ => none

/-- Go `m[k] = v`. -/
def GoMap.set {V : Type} (m : GoMap V) (k : String) (v : V) : GoMap V :=
  fun j => if j = k then some v else m j

/-- Go `type Word struct`: `oles` is `map[string]*string`, `images` is
`map[string]string`. -/
structure Word where
  Uri : String
  Tables : List TableData
  doc : Document
  oles : GoMap (Option String)
  images : GoMap String

/-- Go `w.images[k]`: the zero value `""` on an absent key. -/
def Word.imagesAt (w : Word) (k : String) : String := (w.images k).getD ""

/-- Go `w.oles[k]`: the zero value `nil` on an absent key. -/
def Word.olesAt (w : Word) (k : String) : Option String := (w.oles k).getD none

/-! ## Cell renderer -/

/-- The call `fmt.Sprintf("<img src='%s' style='width:%s;height:%s'/>", uri, width, height)`. -/
def imgTag (uri width height : String) : String :=
  "<img src='" ++ uri ++ "' style='width:" ++ width ++ ";height:" ++ height ++ "'/>"

/-- The body of the loop over runs in `getCellText`, up to the two
`WriteString` calls: the value of the local `text`.  `var text string`
starts as `""`; each iteration of an inner loop overwrites it. -/
def runText (w : Word) (r : Run) : Option String :=
  match r.drawingInline with
  | some dis =>
    some (dis.foldl (fun _ di => imgTag (w.imagesAt di.relID) di.width di.height) "")
  | none =>
    match r.oleObjects with
    | some oles => oles.foldlM (fun _ ole => w.olesAt ole.oleRid) ""
    | none => some r.text

/-- The loop `for _, r := range runs` of `getCellText` on the two buffers
`(resText, htmlResText)`. -/
def runsLoop (w : Word) : List Run → String × String → Option (String × String)
  | [], bufs => some bufs
  | r :: rs, bufs =>
    match runText w r with
    | none => none
    | some text => runsLoop w rs (bufs.1 ++ text, bufs.2 ++ text)

/-- The loop `for paragIdx, paragraph := range paragraphs` of `getCellText`;
`n` is `len(paragraphs)` and `paragIdx` the index of the head of the list. -/
def paragraphsLoop (w : Word) (n : Nat) :
    Nat → List Paragraph → String × String → Option (String × String)
  | _, [], bufs => some bufs
  | paragIdx, p :: ps, bufs =>
    match runsLoop w p.runs bufs with
    | none => none
    | some bufs1 =>
      paragraphsLoop w n (paragIdx + 1) ps
        (if (paragIdx : Int) < (n : Int) - 1 then (bufs1.1, bufs1.2 ++ "<br/>") else bufs1)

/-- Go `func (w *Word) getCellText(cell *document.Cell) (string, string)`. -/
def getCellText (w : Word) (cell : Cell) : Option (String × String) :=
  paragraphsLoop w cell.paragraphs.length 0 cell.paragraphs ("", "")

/-! ## Table walker -/

/-- The loop of `getRowText` over the cells, on the local `rowData`. -/
def cellsLoop (w : Word) : List Cell → RowData → Option RowData
  | [], rowData => some rowData
  | cell :: cells, rowData =>
    match getCellText w cell with
    | none => none
    | some (rawText, htmlText) =>
      cellsLoop w cells
        { Content := rowData.Content ++ [rawText],
          HtmlContent := rowData.HtmlContent ++ [htmlText] }

/-- Go `func (w *Word) getRowText(row *document.Row) RowData`. -/
def getRowText (w : Word) (row : Row) : Option RowData :=
  cellsLoop w row.cells { Content := [], HtmlContent := [] }

/-- The loop of `getRowsData` over the rows, on the local `td`. -/
def rowsLoop (w : Word) : List Row → TableData → Option TableData
  | [], td => some td
  | row :: rows, td =>
    match getRowText w row with
    | none => none
    | some rowData => rowsLoop w rows { Rows := td.Rows ++ [rowData] }

/-- Go `func (w *Word) getRowsData(rows *[]document.Row) TableData`. -/
def getRowsData (w : Word) (rows : List Row) : Option TableData :=
  rowsLoop w rows { Rows := [] }

/-- The loop of `getTableData` over the tables; only `w.Tables` changes. -/
def tablesLoop : List Table → Word → Option Word
  | [], w => some w
  | table :: tables, w =>
    match getRowsData w table.rows with
    | none => none
    | some tableData => tablesLoop tables { w with Tables := w.Tables ++ [tableData] }

/-- Go `func (w *Word) getTableData()`. -/
def getTableData (w : Word) : Option Word :=
  tablesLoop w.doc.tables w

/-! ## Closed forms used to state the properties of the cell renderer -/

/-- All the values of a list of results, or `none` when one of them is a panic. -/
def allSome {α : Type} : List (Option α) → Option (List α)
  | [] => some []
  | none :: _ => none
  | some a :: rest =>
    match allSome rest with
    | none => none
    | some as => some (a :: as)

/-- In-order concatenation of a list of strings. -/
def concatAll : List String → String
  | [] => ""
  | s :: rest => s ++ concatAll rest

/-- The strings of a list joined by the break marker `<br/>`: one marker
between two consecutive strings, none after the last. -/
def joinBr : List String → String
  | [] => ""
  | [s] => s
  | s :: t :: rest => s ++ "<br/>" ++ joinBr (t :: rest)

/-- The text of a paragraph: the in-order concatenation of what its runs emit. -/
def paragraphText (w : Word) (p : Paragraph) : Option String :=
  (allSome (p.runs.map (runText w))).map concatAll

/-- The per-paragraph texts `p_1 .. p_N` of a cell. -/
def paragraphTexts (w : Word) (cell : Cell) : Option (List String) :=
  allSome (cell.paragraphs.map (paragraphText w))

/-- Number of positions of `s` at which `pat` occurs. -/
def occurrences (pat : List Char) : List Char → Nat
  | [] => 0
  | c :: rest => (if pat.isPrefixOf (c :: rest) then 1 else 0) + occurrences pat rest

/-- Number of occurrences of the break marker `<br/>` in a string. -/
def countBr (s : String) : Nat := occurrences "<br/>".data s.data

/-- The rendered cells of a row, in column order. -/
def rowCells (w : Word) (row : Row) : Option (List (String × String)) :=
  allSome (row.cells.map (getCellText w))

/-- The row result assembled from the rendered cells of a row. -/
def RowData.ofCells (cs : List (String × String)) : RowData :=
  { Content := cs.map Prod.fst, HtmlContent := cs.map Prod.snd }

/-! ## Equation post-processing: `strings.Replace(latex, "$$", _, 1)` -/

/-- Go `strings.Index(s, pat)` on the characters of the strings; `none` is
the result `-1`.  The pattern searched by the source is ASCII, so an
occurrence in the bytes of a UTF-8 text is an occurrence in its characters. -/
def stringsIndex (pat : List Char) : List Char → Option Nat
  | [] => if pat.isPrefixOf [] then some 0 else none
  | c :: rest =>
    if pat.isPrefixOf (c :: rest) then some 0 else (stringsIndex pat rest).map (· + 1)

/-- Go `strings.Replace(s, old, new, 1)`: the first occurrence of `old` in
`s`, when there is one, is replaced by `new`. -/
def stringsReplace1 (s old new : String) : String :=
  match stringsIndex old.data s.data with
  | none => s
  | some i => ⟨s.data.take i ++ new.data ++ s.data.drop (i + old.data.length)⟩

/-- The two statements of `parseOle` that rewrite the converter's output:
`latex = strings.Replace(latex, "$$", "[", 1)` followed by
`latex = strings.Replace(latex, "$$", "]", 1)`. -/
def replaceDollars (latex : String) : String :=
  stringsReplace1 (stringsReplace1 latex "$$" "[") "$$" "]"

/-- A left-to-right scan of a string that replaces the successive
non-overlapping occurrences of `pat` by the successive strings of `news`:
the first occurrence by the first string, the second by the second, until
`news` is used up; every other character is kept.  `skip` is the number of
characters of an occurrence just replaced that remain to be passed over. -/
def scanReplace (pat : List Char) : Nat → List (List Char) → List Char → List Char
  | _, _, [] => []
  | skip + 1, news, _ :: rest => scanReplace pat skip news rest
  | 0, [], c :: rest => c :: scanReplace pat 0 [] rest
  | 0, new :: news, c :: rest =>
    if pat.isPrefixOf (c :: rest) then new ++ scanReplace pat (pat.length - 1) news rest
    else c :: scanReplace pat 0 (new :: news) rest

/-- The string `s` with its first two left-to-right, non-overlapping
occurrences of `$$` replaced, the first by `[` and the second by `]`. -/
def replaceFirstTwoDollars (s : String) : String :=
  ⟨scanReplace "$$".data 0 ["[".data, "]".data] s.data⟩

/-! ## Resolver pools: `parseOle` and `parseImage`

Each reference of the list gets one goroutine.  A goroutine performs, in
order: the test `_, ok := m[id]`; when the key is absent, the call of the
external collaborator; the store `m[id] = value`; and `wg.Done()`.  A
schedule lists which goroutine takes its next step.

The map is a plain Go map and the source holds no lock, so the store is not
atomic: it begins on the map as the goroutine finds it and ends by
publishing that map with the new entry, and an entry another goroutine
publishes in between is lost.  The check of the Go runtime for concurrent
map access is best effort: an event says whether it notices that another
goroutine is in the middle of a store, and when it does the runtime aborts
the process (`fatal error: concurrent map writes`, or
`concurrent map read and map write` at the test). -/

/-- Where a worker goroutine stands. -/
inductive Pc (V : Type) where
  /-- About to test whether the identifier is a key of the map. -/
  | start : Pc V
  /-- The test found the key absent; about to call the external collaborator. -/
  | resolving : Pc V
  /-- Holds the resolved value; about to begin the store into the map. -/
  | storing : V → Pc V
  /-- In the middle of the store of the value, begun on the map given. -/
  | writing : V → GoMap V → Pc V
  /-- The goroutine has returned and its deferred `wg.Done()` has run. -/
  | done : Pc V

/-- The state of a pool: the shared map, the program counter of every
worker, the references for which the external collaborator has been called
so far (latest first), and whether the runtime has aborted the process. -/
structure PoolState (ρ V : Type) where
  m : GoMap V
  pcs : List (Pc V)
  calls : List ρ
  fatal : Bool

/-- One event of a schedule: the index of the worker that takes a step, the
value of `int(time.Now().UnixNano())` at that moment, and whether the
runtime's check for concurrent map access notices, at this step, a store
that another goroutine has begun and not ended. -/
structure Event where
  worker : Nat
  now : Int
  detects : Bool

/-- The state after `make(map...)` and the `go` statements of the loop. -/
def PoolState.init {ρ V : Type} (refs : List ρ) : PoolState ρ V :=
  { m := GoMap.empty, pcs := refs.map (fun _ => Pc.start), calls := [], fatal := false }

/-- Whether a program counter is in the middle of a store. -/
def Pc.isWriting {V : Type} : Pc V → Bool
  | Pc.writing _ _ => true
  | _ => false

/-- Whether some goroutine is in the middle of a store. -/
def PoolState.storeInProgress {ρ V : Type} (st : PoolState ρ V) : Bool :=
  st.pcs.any Pc.isWriting

/-- One step of worker `ev.worker`.  Nothing moves once the runtime has
aborted; a worker that has returned (or an index that names no worker)
leaves the state unchanged. -/
def PoolState.step {ρ V : Type} (key : ρ → String) (resolve : Int → ρ → V)
    (refs : List ρ) (st : PoolState ρ V) (ev : Event) : PoolState ρ V :=
  if st.fatal then st
  else
    match refs[ev.worker]?, st.pcs[ev.worker]? with
    | some ref, some Pc.start =>
      if ev.detects && st.storeInProgress then { st with fatal := true }
      else
        match st.m (key ref) with
        | some _ => { st with pcs := st.pcs.set ev.worker Pc.done }
        | none => { st with pcs := st.pcs.set ev.worker Pc.resolving }
    | some ref, some Pc.resolving =>
      { st with pcs := st.pcs.set ev.worker (Pc.storing (resolve ev.now ref)),
                calls := ref :: st.calls }
    | some _, some (Pc.storing v) =>
      if ev.detects && st.storeInProgress then { st with fatal := true }
      else { st with pcs := st.pcs.set ev.worker (Pc.writing v st.m) }
    | some ref, some (Pc.writing v found) =>
      { st with m := found.set (key ref) v, pcs := st.pcs.set ev.worker Pc.done }
    | _, _ => st

/-- The state reached from `st` by a schedule. -/
def PoolState.run {ρ V : Type} (key : ρ → String) (resolve : Int → ρ → V)
    (refs : List ρ) (sched : List Event) (st : PoolState ρ V) : PoolState ρ V :=
  sched.foldl (PoolState.step key resolve refs) st

/-- Whether a program counter is `done`. -/
def Pc.isDone {V : Type} : Pc V → Bool
  | Pc.done => true
  | _ => false

/-- Whether `wg.Wait()` returns: the process has not been aborted and every
worker has called `wg.Done()`. -/
def PoolState.allDone {ρ V : Type} (st : PoolState ρ V) : Bool :=
  !st.fatal && st.pcs.all Pc.isDone

/-- What an equation worker stores for a reference: `&latex`, where `latex`
is the rewritten output of `eqn.Convert(oleObjPath.Path())`. -/
def oleResolve (convert : String → String) (_now : Int) (o : OleObjectPath) : Option String :=
  some (replaceDollars (convert o.path))

/-- What an image worker stores for a reference: the result of
`utils.UploadFileToQiniu(key, localFile)` with
`key := fmt.Sprintf("%s.%s", strconv.Itoa(int(time.Now().UnixNano())), image.Format())`;
`now` is the value of `int(time.Now().UnixNano())`, an `int` of the platform. -/
def imageResolve (upload : String → String → String) (now : Int) (image : ImageRef) : String :=
  upload (toString now ++ "." ++ image.format) image.path

/-- The pool of `parseOle` after a schedule. -/
def olePool (convert : String → String) (olePaths : List OleObjectPath)
    (sched : List Event) : PoolState OleObjectPath (Option String) :=
  PoolState.run OleObjectPath.rid (oleResolve convert) olePaths sched (PoolState.init olePaths)

/-- The pool of `parseImage` after a schedule. -/
def imagePool (upload : String → String → String) (images : List ImageRef)
    (sched : List Event) : PoolState ImageRef String :=
  PoolState.run ImageRef.relID (imageResolve upload) images sched (PoolState.init images)

/-- Go `func (w *Word) parseOle(olePaths []document.OleObjectPath)` under a
schedule of its workers: `none` when `wg.Wait()` does not return under the
schedule (it ends too early, or the runtime has aborted the process). -/
def parseOle (convert : String → String) (w : Word) (olePaths : List OleObjectPath)
    (sched : List Event) : Option Word :=
  let st := olePool convert olePaths sched
  if st.allDone then some { w with oles := st.m } else none

/-- Go `func (w *Word) parseImage(images []common.ImageRef)` under a
schedule of its workers: `none` when `wg.Wait()` does not return under the
schedule (it ends too early, or the runtime has aborted the process). -/
def parseImage (upload : String → String → String) (w : Word) (images : List ImageRef)
    (sched : List Event) : Option Word :=
  let st := imagePool upload images sched
  if st.allDone then some { w with images := st.m } else none

/-- Go `func NewWord() *Word`: the zero `Word` (a nil map reads as an empty one). -/
def NewWord : Word :=
  { Uri := "", Tables := [], doc := { tables := [], oleObjectPaths := [], images := [] },
    oles := GoMap.empty, images := GoMap.empty }

/-- Go `func parser(doc *document.Document) *Word`, under the schedules of
the two pools: `none` when a pool does not return or `getTableData` panics. -/
def parser (convert : String → String) (upload : String → String → String)
    (doc : Document) (oleSched imageSched : List Event) : Option Word :=
  match parseOle convert { NewWord with doc := doc } doc.oleObjectPaths oleSched with
  | none => none
  | some w1 =>
    match parseImage upload w1 doc.images imageSched with
    | none => none
    | some w2 => getTableData w2

/-- The schedule that runs the workers `0 .. n-1` one after the other, each
to its end: test, external call, beginning and end of the store. -/
def seqSchedule : Nat → List Event
  | 0 => []
  | n + 1 => seqSchedule n ++ [⟨n, 0, true⟩, ⟨n, 0, true⟩, ⟨n, 0, true⟩, ⟨n, 0, true⟩]

/-- A run all of whose equation identifiers hold a string in the equation
map, when the run is rendered as an equation (its `DrawingInline()` is nil
and its `OleObjects()` is not). -/
def Run.resolved (w : Word) (r : Run) : Prop :=
  r.drawingInline = none → ∀ os, r.oleObjects = some os →
    ∀ o, o ∈ os → (w.olesAt o.oleRid).isSome = true

/-- A document all of whose runs are resolved. -/
def Word.resolved (w : Word) : Prop :=
  ∀ t, t ∈ w.doc.tables → ∀ row, row ∈ t.rows → ∀ c, c ∈ row.cells →
    ∀ p, p ∈ c.paragraphs → ∀ r, r ∈ p.runs → r.resolved w

/-! ## Concrete documents used as examples -/

/-- A run that carries only the text `t`: no drawing list, no object list. -/
def textRun (t : String) : Run :=
  { drawingInline := none, oleObjects := none, text := t }

/-- A cell with one paragraph per string, each holding one text run. -/
def textCell (ts : List String) : Cell :=
  { paragraphs := ts.map (fun t => { runs := [textRun t] }) }

/-- A document with one table, one row and one single-paragraph cell whose
only run is `r`. -/
def oneRunDocument (r : Run) : Document :=
  { tables := [{ rows := [{ cells := [{ paragraphs := [{ runs := [r] }] }] }] }],
    oleObjectPaths := [], images := [] }

/-- A document with one table of two rows: the cells `"A"`, an empty cell
and a two-paragraph cell in the first row, the cell `"B"` in the second. -/
def sampleDocument : Document :=
  { tables := [{ rows := [{ cells := [textCell ["A"], { paragraphs := [] },
                                      textCell ["C", "D"]] },
                          { cells := [textCell ["B"]] }] }],
    oleObjectPaths := [], images := [] }

/-- A word whose equation map holds `[x^2]` for `rId1` and `[y]` for `rId2`
and whose image map holds `https://cdn/a.png` for `rId7`. -/
def sampleWord : Word :=
  { NewWord with
    oles := (GoMap.empty.set "rId1" (some "[x^2]")).set "rId2" (some "[y]"),
    images := GoMap.empty.set "rId7" "https://cdn/a.png" }

/-- A reference list in which the identifier `rId1` occurs twice. -/
def duplicateOlePaths : List OleObjectPath :=
  [⟨"rId1", "ole1.bin"⟩, ⟨"rId1", "ole1.bin"⟩]

/-- An image list in which the identifier `rId7` occurs twice. -/
def duplicateImages : List ImageRef :=
  [⟨"rId7", "image1.png", "png"⟩, ⟨"rId7", "image1.png", "png"⟩]

/-- A schedule of two workers in which both test the map before either
stores, the two stores not overlapping: test 0, test 1, call 0, call 1,
store 0 from beginning to end, store 1 from beginning to end. -/
def interleavedSchedule : List Event :=
  [⟨0, 1, true⟩, ⟨1, 2, true⟩, ⟨0, 3, true⟩, ⟨1, 4, true⟩,
   ⟨0, 5, true⟩, ⟨0, 6, true⟩, ⟨1, 7, true⟩, ⟨1, 8, true⟩]

/-- A reference list with the two distinct identifiers `rId1` and `rId2`. -/
def distinctOlePaths : List OleObjectPath :=
  [⟨"rId1", "ole1.bin"⟩, ⟨"rId2", "ole2.bin"⟩]

/-- An image list with the two distinct identifiers `rId7` and `rId8`. -/
def distinctImages : List ImageRef :=
  [⟨"rId7", "image1.png", "png"⟩, ⟨"rId8", "image2.png", "png"⟩]

/-- A schedule of two workers whose stores overlap without the runtime
noticing: test 0, test 1, call 0, call 1, store 0 begins, store 1 begins,
store 0 ends, store 1 ends. -/
def racingSchedule : List Event :=
  [⟨0, 1, false⟩, ⟨1, 2, false⟩, ⟨0, 3, false⟩, ⟨1, 4, false⟩,
   ⟨0, 5, false⟩, ⟨1, 6, false⟩, ⟨0, 7, false⟩, ⟨1, 8, false⟩]

/-- The schedule `racingSchedule`, except that the runtime notices the
overlap when the second store begins. -/
def detectedSchedule : List Event :=
  [⟨0, 1, false⟩, ⟨1, 2, false⟩, ⟨0, 3, false⟩, ⟨1, 4, false⟩,
   ⟨0, 5, false⟩, ⟨1, 6, true⟩, ⟨0, 7, false⟩, ⟨1, 8, false⟩]

/-- A document that lists the equations `rId1` and `rId2` and whose one cell
holds one run with the equation `rId1`. -/
def equationDocument : Document :=
  { tables := [{ rows := [{ cells := [{ paragraphs := [{ runs :=
      [{ drawingInline := none, oleObjects := some [⟨"rId1"⟩], text := "" }] }] }] }] }],
    oleObjectPaths := distinctOlePaths, images := [] }

/-- The string made of `n` break markers `<br/>`. -/
def breaks : Nat → String
  | 0 => ""
  | n + 1 => "<br/>" ++ breaks n

/-- What a program counter holds satisfies `P`: the value about to be
stored, and every entry of the map on which a store has begun. -/
def Pc.holds {V : Type} (P : V → Prop) : Pc V → Prop
  | Pc.storing v => P v
  | Pc.writing v found => P v ∧ ∀ k u, found k = some u → P u
  | _ => True

/-- Every value of a pool satisfies `P`: the entries of the map and what
the workers hold. -/
def PoolState.valuesSatisfy {ρ V : Type} (P : V → Prop) (st : PoolState ρ V) : Prop :=
  (∀ k v, st.m k = some v → P v) ∧ ∀ pc, pc ∈ st.pcs → pc.holds P

/-! ## Lemmas on the cell renderer -/

theorem allSome_length {α : Type} :
    ∀ (l : List (Option α)) (r : List α), allSome l = some r → r.length = l.length
  | [], r, h => by
    simp only [allSome, Option.some.injEq] at h
    subst h; rfl
  | none :: _, r, h => by simp [allSome] at h
  | some a :: rest, r, h => by
    simp only [allSome] at h
    cases hr : allSome rest with
    | none => simp [hr] at h
    | some as =>
      simp only [hr, Option.some.injEq] at h
      subst h
      simp [allSome_length rest as hr]

theorem runsLoop_eq (w : Word) :
    ∀ (rs : List Run) (bufs : String × String),
      runsLoop w rs bufs
        = ((allSome (rs.map (runText w))).map concatAll).map
            (fun t => (bufs.1 ++ t, bufs.2 ++ t))
  | [], bufs => by simp [runsLoop, allSome, concatAll]
  | r :: rs, bufs => by
    cases hr : runText w r with
    | none => simp [runsLoop, allSome, hr]
    | some text =>
      simp only [runsLoop, hr, List.map_cons, allSome]
      rw [runsLoop_eq w rs]
      cases allSome (rs.map (runText w)) with
      | none => simp
      | some ts => simp [concatAll, String.append_assoc]

theorem paragraphsLoop_eq (w : Word) (n : Nat) :
    ∀ (ps : List Paragraph) (idx : Nat) (bufs : String × String), idx + ps.length = n →
      paragraphsLoop w n idx ps bufs
        = (allSome (ps.map (paragraphText w))).map
            (fun ts => (bufs.1 ++ concatAll ts, bufs.2 ++ joinBr ts))
  | [], idx, bufs, _ => by simp [paragraphsLoop, allSome, concatAll, joinBr]
  | p :: ps, idx, bufs, h => by
    simp only [paragraphsLoop, List.map_cons]
    rw [runsLoop_eq]
    cases hp : paragraphText w p with
    | none =>
      simp only [paragraphText] at hp
      simp [hp, allSome]
    | some t =>
      have hp2 := hp
      simp only [paragraphText] at hp2
      simp only [hp2, Option.map_some', allSome]
      have hlen : idx + 1 + ps.length = n := by
        simp only [List.length_cons] at h; omega
      rw [paragraphsLoop_eq w n ps (idx + 1) _ hlen]
      cases hts : allSome (ps.map (paragraphText w)) with
      | none => simp
      | some ts =>
        have hl := allSome_length _ _ hts
        simp only [List.length_map] at hl
        cases ts with
        | nil =>
          have h0 : ps.length = 0 := by simpa using hl.symm
          have hn : ¬ ((idx : Int) < (n : Int) - 1) := by omega
          simp [hn, concatAll, joinBr]
        | cons u us =>
          have h0 : ps.length = us.length + 1 := by simpa using hl.symm
          have hn : (idx : Int) < (n : Int) - 1 := by omega
          simp [hn, concatAll, joinBr, String.append_assoc]

theorem getCellText_eq (w : Word) (cell : Cell) :
    getCellText w cell
      = (paragraphTexts w cell).map (fun ts => (concatAll ts, joinBr ts)) := by
  unfold getCellText paragraphTexts
  rw [paragraphsLoop_eq w _ cell.paragraphs 0 ("", "") (by simp)]
  simp

/-! ## Lemmas on the table walker -/

theorem allSome_getElem? {α : Type} :
    ∀ (l : List (Option α)) (r : List α), allSome l = some r →
      ∀ (i : Nat) (a : Option α), l[i]? = some a → ∃ b, a = some b ∧ r[i]? = some b
  | [], r, _, i, a, hi => by simp at hi
  | none :: _, r, h, _, _, _ => by simp [allSome] at h
  | some x :: rest, r, h, i, a, hi => by
    simp only [allSome] at h
    cases hr : allSome rest with
    | none => simp [hr] at h
    | some as =>
      simp only [hr, Option.some.injEq] at h
      subst h
      cases i with
      | zero =>
        simp only [List.getElem?_cons_zero, Option.some.injEq] at hi
        exact ⟨x, hi.symm, by simp⟩
      | succ i =>
        simp only [List.getElem?_cons_succ] at hi
        simpa using allSome_getElem? rest as hr i a hi

theorem allSome_isSome {α : Type} :
    ∀ (l : List (Option α)), (∀ a ∈ l, a.isSome = true) → (allSome l).isSome = true
  | [], _ => by simp [allSome]
  | none :: _, h => by simpa using h none (by simp)
  | some x :: rest, h => by
    have ih := allSome_isSome rest (fun a ha => h a (by simp [ha]))
    simp only [allSome]
    cases hr : allSome rest with
    | none => simp [hr] at ih
    | some as => simp

theorem cellsLoop_eq (w : Word) :
    ∀ (cells : List Cell) (rd : RowData),
      cellsLoop w cells rd
        = (allSome (cells.map (getCellText w))).map
            (fun cs => { Content := rd.Content ++ cs.map Prod.fst,
                         HtmlContent := rd.HtmlContent ++ cs.map Prod.snd })
  | [], rd => by simp [cellsLoop, allSome]
  | c :: cells, rd => by
    cases hc : getCellText w c with
    | none => simp [cellsLoop, allSome, hc]
    | some pr =>
      obtain ⟨raw, html⟩ := pr
      simp only [cellsLoop, hc, List.map_cons, allSome]
      rw [cellsLoop_eq w cells]
      cases allSome (cells.map (getCellText w)) with
      | none => simp
      | some cs => simp

theorem getRowText_eq (w : Word) (row : Row) :
    getRowText w row = (rowCells w row).map RowData.ofCells := by
  unfold getRowText rowCells RowData.ofCells
  rw [cellsLoop_eq]
  simp

theorem rowsLoop_eq (w : Word) :
    ∀ (rows : List Row) (td : TableData),
      rowsLoop w rows td
        = (allSome (rows.map (getRowText w))).map (fun rds => { Rows := td.Rows ++ rds })
  | [], td => by simp [rowsLoop, allSome]
  | r :: rows, td => by
    cases hr : getRowText w r with
    | none => simp [rowsLoop, allSome, hr]
    | some rd =>
      simp only [rowsLoop, hr, List.map_cons, allSome]
      rw [rowsLoop_eq w rows]
      cases allSome (rows.map (getRowText w)) with
      | none => simp
      | some rds => simp

theorem getRowsData_eq (w : Word) (rows : List Row) :
    getRowsData w rows = (allSome (rows.map (getRowText w))).map (fun rds => { Rows := rds }) := by
  unfold getRowsData
  rw [rowsLoop_eq]
  simp

theorem runText_congr (w1 w2 : Word) (ho : w1.oles = w2.oles) (hi : w1.images = w2.images) :
    runText w1 = runText w2 := by
  funext r
  simp [runText, Word.imagesAt, Word.olesAt, ho, hi]

theorem paragraphText_congr (w1 w2 : Word) (ho : w1.oles = w2.oles)
    (hi : w1.images = w2.images) : paragraphText w1 = paragraphText w2 := by
  funext p
  simp only [paragraphText, runText_congr w1 w2 ho hi]

theorem getCellText_congr (w1 w2 : Word) (ho : w1.oles = w2.oles)
    (hi : w1.images = w2.images) : getCellText w1 = getCellText w2 := by
  funext cell
  simp only [getCellText_eq, paragraphTexts, paragraphText_congr w1 w2 ho hi]

theorem getRowText_congr (w1 w2 : Word) (ho : w1.oles = w2.oles)
    (hi : w1.images = w2.images) : getRowText w1 = getRowText w2 := by
  funext row
  simp only [getRowText_eq, rowCells, getCellText_congr w1 w2 ho hi]

theorem getRowsData_congr (w1 w2 : Word) (ho : w1.oles = w2.oles)
    (hi : w1.images = w2.images) : getRowsData w1 = getRowsData w2 := by
  funext rows
  simp only [getRowsData_eq, getRowText_congr w1 w2 ho hi]

theorem tablesLoop_eq :
    ∀ (tables : List Table) (w : Word),
      tablesLoop tables w
        = (allSome (tables.map (fun t => getRowsData w t.rows))).map
            (fun tds => { w with Tables := w.Tables ++ tds })
  | [], w => by simp [tablesLoop, allSome]
  | t :: tables, w => by
    cases ht : getRowsData w t.rows with
    | none => simp [tablesLoop, allSome, ht]
    | some td =>
      simp only [tablesLoop, ht, List.map_cons, allSome]
      rw [tablesLoop_eq tables]
      have hsame : (fun t : Table =>
          getRowsData { w with Tables := w.Tables ++ [td] } t.rows)
          = (fun t : Table => getRowsData w t.rows) :=
        funext fun t => congrFun
          (getRowsData_congr { w with Tables := w.Tables ++ [td] } w rfl rfl) t.rows
      rw [hsame]
      cases allSome (tables.map (fun t => getRowsData w t.rows)) with
      | none => simp
      | some tds => simp

theorem getTableData_eq (w : Word) :
    getTableData w
      = (allSome (w.doc.tables.map (fun t => getRowsData w t.rows))).map
          (fun tds => { w with Tables := w.Tables ++ tds }) := by
  unfold getTableData
  rw [tablesLoop_eq]

/-! ## Lemmas on the equation post-processing -/

theorem scanReplace_no_news (pat : List Char) :
    ∀ (s : List Char) (k : Nat), scanReplace pat k [] s = s.drop k
  | [], k => by simp [scanReplace]
  | c :: rest, 0 => by simp [scanReplace, scanReplace_no_news pat rest 0]
  | c :: rest, k + 1 => by simp [scanReplace, scanReplace_no_news pat rest k]

theorem replace1_eq_scan (pat new : List Char) (hpat : pat ≠ []) :
    ∀ (s : List Char),
      (match stringsIndex pat s with
        | none => s
        | some i => s.take i ++ new ++ s.drop (i + pat.length))
        = scanReplace pat 0 [new] s
  | [] => by
    cases pat with
    | nil => exact absurd rfl hpat
    | cons p ps => simp [stringsIndex, scanReplace, List.isPrefixOf]
  | c :: rest => by
    have ih := replace1_eq_scan pat new hpat rest
    by_cases hp : pat.isPrefixOf (c :: rest) = true
    · have hlen : pat.length = (pat.length - 1) + 1 := by
        have : 0 < pat.length := List.length_pos.mpr hpat
        omega
      simp only [stringsIndex, hp, if_true, scanReplace, scanReplace_no_news]
      rw [hlen]
      simp
    · simp only [stringsIndex, hp, scanReplace]
      rw [← ih]
      cases stringsIndex pat rest with
      | none => simp
      | some i =>
        have : i + 1 + pat.length = (i + pat.length) + 1 := by omega
        simp [this]

theorem stringsReplace1_data (s old new : String) (hold : old.data ≠ []) :
    (stringsReplace1 s old new).data = scanReplace old.data 0 [new.data] s.data := by
  rw [← replace1_eq_scan old.data new.data hold s.data]
  unfold stringsReplace1
  cases stringsIndex old.data s.data with
  | none => rfl
  | some i => rfl

theorem scan_dollars_twice :
    ∀ (s : List Char),
      scanReplace ['$', '$'] 0 [[']']] (scanReplace ['$', '$'] 0 [['[']] s)
        = scanReplace ['$', '$'] 0 [['['], [']']] s
  | [] => by simp [scanReplace]
  | [c] => by
    by_cases hc : c = '$'
    · subst hc; simp [scanReplace, List.isPrefixOf]
    · have hc' : ¬ '$' = c := fun e => hc e.symm
      simp [scanReplace, List.isPrefixOf, hc']
  | c :: c2 :: rest => by
    have ih := scan_dollars_twice (c2 :: rest)
    by_cases hc : c = '$'
    · subst hc
      by_cases hc2 : c2 = '$'
      · subst hc2
        simp [scanReplace, List.isPrefixOf, scanReplace_no_news]
      · have hc2' : ¬ '$' = c2 := fun e => hc2 e.symm
        have h1 : scanReplace ['$', '$'] 0 [['[']] ('$' :: c2 :: rest)
            = '$' :: scanReplace ['$', '$'] 0 [['[']] (c2 :: rest) := by
          simp [scanReplace, List.isPrefixOf, hc2']
        have h2 : scanReplace ['$', '$'] 0 [['[']] (c2 :: rest)
            = c2 :: scanReplace ['$', '$'] 0 [['[']] rest := by
          simp [scanReplace, List.isPrefixOf, hc2']
        have h3 : scanReplace ['$', '$'] 0 [['['], [']']] ('$' :: c2 :: rest)
            = '$' :: scanReplace ['$', '$'] 0 [['['], [']']] (c2 :: rest) := by
          simp [scanReplace, List.isPrefixOf, hc2']
        rw [h3, ← ih, h1, h2]
        simp [scanReplace, List.isPrefixOf, hc2']
    · have hc' : ¬ '$' = c := fun e => hc e.symm
      have h1 : scanReplace ['$', '$'] 0 [['[']] (c :: c2 :: rest)
          = c :: scanReplace ['$', '$'] 0 [['[']] (c2 :: rest) := by
        simp [scanReplace, List.isPrefixOf, hc']
      have h3 : scanReplace ['$', '$'] 0 [['['], [']']] (c :: c2 :: rest)
          = c :: scanReplace ['$', '$'] 0 [['['], [']']] (c2 :: rest) := by
        simp [scanReplace, List.isPrefixOf, hc']
      rw [h3, ← ih, h1]
      generalize scanReplace ['$', '$'] 0 [['[']] (c2 :: rest) = t
      cases t with
      | nil => simp [scanReplace]
      | cons x xs => simp [scanReplace, List.isPrefixOf, hc']

theorem replaceDollars_eq_scan (s : String) :
    replaceDollars s = replaceFirstTwoDollars s := by
  apply String.ext
  unfold replaceDollars replaceFirstTwoDollars
  rw [stringsReplace1_data _ _ _ (by decide), stringsReplace1_data _ _ _ (by decide)]
  exact scan_dollars_twice s.data

theorem scan_close_no_dollar :
    ∀ (body : List Char), '$' ∉ body →
      scanReplace ['$', '$'] 0 [[']']] (body ++ ['$', '$']) = body ++ [']']
  | [], _ => by simp [scanReplace, List.isPrefixOf]
  | c :: rest, h => by
    have hc' : ¬ '$' = c := fun e => h (by rw [e]; exact List.mem_cons_self _ _)
    have hr : '$' ∉ rest := fun e => h (by simp [e])
    simp [scanReplace, List.isPrefixOf, hc', scan_close_no_dollar rest hr]

theorem replaceDollars_delimited (body : String) (h : '$' ∉ body.data) :
    replaceDollars ("$$" ++ body ++ "$$") = "[" ++ body ++ "]" := by
  rw [replaceDollars_eq_scan]
  apply String.ext
  unfold replaceFirstTwoDollars
  have h1 : ("$$" ++ body ++ "$$").data = '$' :: '$' :: (body.data ++ ['$', '$']) := by
    simp [String.data_append]
  have h2 : ("[" ++ body ++ "]").data = '[' :: (body.data ++ [']']) := by
    simp [String.data_append]
  rw [h2]
  show scanReplace ['$', '$'] 0 [['['], [']']] ("$$" ++ body ++ "$$").data = _
  rw [h1]
  simp [scanReplace, List.isPrefixOf, scan_close_no_dollar body.data h]

/-! ## The values a pool stores -/

theorem PoolState.valuesSatisfy_set {ρ V : Type} (P : V → Prop) (st : PoolState ρ V)
    (i : Nat) (x : Pc V) (hx : x.holds P) (h : ∀ pc, pc ∈ st.pcs → pc.holds P) :
    ∀ pc, pc ∈ st.pcs.set i x → pc.holds P := by
  intro pc hpc
  rcases List.mem_or_eq_of_mem_set hpc with hmem | heq
  · exact h pc hmem
  · rw [heq]; exact hx

theorem PoolState.valuesSatisfy_step {ρ V : Type} (key : ρ → String)
    (resolve : Int → ρ → V) (refs : List ρ) (P : V → Prop)
    (hP : ∀ t ref, P (resolve t ref)) (st : PoolState ρ V) (ev : Event)
    (h : st.valuesSatisfy P) :
    (PoolState.step key resolve refs st ev).valuesSatisfy P := by
  obtain ⟨hm, hpcs⟩ := h
  unfold PoolState.step
  by_cases hf : st.fatal = true
  · simp only [hf, if_true]
    exact ⟨hm, hpcs⟩
  · simp only [hf, Bool.false_eq_true, if_false]
    cases hr : refs[ev.worker]? with
    | none => exact ⟨hm, hpcs⟩
    | some ref =>
      cases hp : st.pcs[ev.worker]? with
      | none => exact ⟨hm, hpcs⟩
      | some pc =>
        have hmem : pc ∈ st.pcs := List.getElem?_mem hp
        cases pc with
        | start =>
          by_cases hd : (ev.detects && st.storeInProgress) = true
          · simp only [hd, if_true]
            exact ⟨hm, hpcs⟩
          · simp only [hd]
            cases hk : st.m (key ref) with
            | none =>
              exact ⟨hm, PoolState.valuesSatisfy_set P st _ _ trivial hpcs⟩
            | some x =>
              exact ⟨hm, PoolState.valuesSatisfy_set P st _ _ trivial hpcs⟩
        | resolving =>
          exact ⟨hm, PoolState.valuesSatisfy_set P st _ _ (hP ev.now ref) hpcs⟩
        | storing v =>
          have hv : P v := hpcs _ hmem
          by_cases hd : (ev.detects && st.storeInProgress) = true
          · simp only [hd, if_true]
            exact ⟨hm, hpcs⟩
          · simp only [hd]
            exact ⟨hm, PoolState.valuesSatisfy_set P st _ _ ⟨hv, hm⟩ hpcs⟩
        | writing v found =>
          obtain ⟨hv, hfound⟩ : P v ∧ ∀ k u, found k = some u → P u := hpcs _ hmem
          refine ⟨?_, PoolState.valuesSatisfy_set P st _ _ trivial hpcs⟩
          intro k u hk
          simp only [GoMap.set] at hk
          by_cases hkk : k = key ref
          · simp only [hkk, if_true, Option.some.injEq] at hk
            rw [← hk]; exact hv
          · simp only [hkk, if_false] at hk
            exact hfound k u hk
        | done => exact ⟨hm, hpcs⟩

theorem PoolState.valuesSatisfy_run {ρ V : Type} (key : ρ → String)
    (resolve : Int → ρ → V) (refs : List ρ) (P : V → Prop)
    (hP : ∀ t ref, P (resolve t ref)) :
    ∀ (sched : List Event) (st : PoolState ρ V), st.valuesSatisfy P →
      (PoolState.run key resolve refs sched st).valuesSatisfy P
  | [], _, h => h
  | ev :: sched, st, h => by
    simp only [PoolState.run, List.foldl_cons]
    exact PoolState.valuesSatisfy_run key resolve refs P hP sched _
      (PoolState.valuesSatisfy_step key resolve refs P hP st ev h)

theorem PoolState.valuesSatisfy_init {ρ V : Type} (P : V → Prop) (refs : List ρ) :
    (PoolState.init refs : PoolState ρ V).valuesSatisfy P := by
  refine ⟨?_, ?_⟩
  · intro k v h
    simp [PoolState.init, GoMap.empty] at h
  · intro pc hpc
    simp only [PoolState.init, List.mem_map] at hpc
    obtain ⟨_, _, rfl⟩ := hpc
    trivial

/-- Under every schedule, every entry of the equation map that `parseOle`
leaves holds the address of a string, the rewritten output of the
converter: a key of the map never holds the nil pointer. -/
theorem parseOle_entries (convert : String → String) (L : List OleObjectPath)
    (sched : List Event) (w w' : Word) (h : parseOle convert w L sched = some w') :
    ∀ k p, w'.oles k = some p → ∃ path, p = some (replaceDollars (convert path)) := by
  unfold parseOle at h
  by_cases hd : (olePool convert L sched).allDone = true
  · simp only [hd, if_true, Option.some.injEq] at h
    subst h
    exact (PoolState.valuesSatisfy_run OleObjectPath.rid (oleResolve convert) L
      (fun p => ∃ path, p = some (replaceDollars (convert path)))
      (fun _ ref => ⟨ref.path, rfl⟩) sched _ (PoolState.valuesSatisfy_init _ L)).1
  · simp [hd] at h

/-! ## Lemmas on the runs -/

theorem foldl_last {α β : Type} (f : α → β) :
    ∀ (l : List α) (hne : l ≠ []) (init : β),
      l.foldl (fun _ a => f a) init = f (l.getLast hne)
  | [], hne, _ => absurd rfl hne
  | [a], _, _ => rfl
  | a :: b :: rest, _, init => by
    rw [List.foldl_cons, foldl_last f (b :: rest) (List.cons_ne_nil b rest) (f a)]
    rfl

theorem foldlM_last {α : Type} (f : α → Option String) :
    ∀ (l : List α) (hne : l ≠ []) (init : String),
      (∀ a, a ∈ l → ∃ v, f a = some v) →
      l.foldlM (fun _ a => f a) init = f (l.getLast hne)
  | [], hne, _, _ => absurd rfl hne
  | [a], _, _, h => by
    obtain ⟨v, hv⟩ := h a (List.mem_singleton.mpr rfl)
    simp [List.foldlM, hv]
  | a :: b :: rest, _, init, h => by
    obtain ⟨v, hv⟩ := h a (List.mem_cons_self _ _)
    have ih := foldlM_last f (b :: rest) (List.cons_ne_nil b rest) v
      (fun x hx => h x (List.mem_cons_of_mem _ hx))
    rw [List.foldlM_cons, hv]
    simp only [Option.some_bind, Option.bind_eq_bind]
    rw [ih]
    rfl

theorem foldlM_none {α : Type} (f : α → Option String) :
    ∀ (l : List α) (init : String), (∃ a, a ∈ l ∧ f a = none) →
      l.foldlM (fun _ a => f a) init = none
  | [], _, h => by
    obtain ⟨a, ha, _⟩ := h
    simp at ha
  | a :: rest, init, h => by
    rw [List.foldlM_cons]
    cases hfa : f a with
    | none => rfl
    | some v =>
      simp only [Option.some_bind, Option.bind_eq_bind]
      apply foldlM_none f rest v
      obtain ⟨x, hx, hfx⟩ := h
      rcases List.mem_cons.mp hx with e | e
      · subst e; rw [hfa] at hfx; cases hfx
      · exact ⟨x, e, hfx⟩

theorem runsLoop_cons (w : Word) (r : Run) (rs : List Run) (bufs : String × String)
    (text : String) (h : runText w r = some text) :
    runsLoop w (r :: rs) bufs = runsLoop w rs (bufs.1 ++ text, bufs.2 ++ text) := by
  simp only [runsLoop, h]

theorem allSome_none_of_mem {α : Type} :
    ∀ (l : List (Option α)), none ∈ l → allSome l = none
  | [], h => by simp at h
  | none :: _, _ => rfl
  | some a :: rest, h => by
    have hr : none ∈ rest := by simpa using h
    simp [allSome, allSome_none_of_mem rest hr]

/-! ## Lemmas on the occurrences of the break marker -/

theorem isPrefixOf_br_sep (c : Char) (a b : List Char) :
    List.isPrefixOf ['<', 'b', 'r', '/', '>'] (c :: (a ++ (['<', 'b', 'r', '/', '>'] ++ b)))
      = List.isPrefixOf ['<', 'b', 'r', '/', '>'] (c :: a) := by
  rcases a with _ | ⟨x, _ | ⟨y, _ | ⟨z, _ | ⟨u, rest⟩⟩⟩⟩ <;>
    simp [List.isPrefixOf]

theorem occurrences_cons (pat : List Char) (c : Char) (rest : List Char) :
    occurrences pat (c :: rest)
      = (if pat.isPrefixOf (c :: rest) then 1 else 0) + occurrences pat rest := rfl

theorem occurrences_br_sep :
    ∀ (a b : List Char),
      occurrences ['<', 'b', 'r', '/', '>'] (a ++ (['<', 'b', 'r', '/', '>'] ++ b))
        = occurrences ['<', 'b', 'r', '/', '>'] a + 1
          + occurrences ['<', 'b', 'r', '/', '>'] b
  | [], b => by
    simp [occurrences, List.isPrefixOf]
  | c :: a, b => by
    have ih := occurrences_br_sep a b
    have hp := isPrefixOf_br_sep c a b
    show occurrences ['<', 'b', 'r', '/', '>'] (c :: (a ++ (['<', 'b', 'r', '/', '>'] ++ b)))
      = _
    rw [occurrences_cons, occurrences_cons, hp, ih]
    omega

theorem occurrences_append_ge (pat : List Char) :
    ∀ (a b : List Char),
      occurrences pat a + occurrences pat b ≤ occurrences pat (a ++ b)
  | [], b => by simp [occurrences]
  | c :: a, b => by
    have ih := occurrences_append_ge pat a b
    have hp : pat.isPrefixOf (c :: a) = true → pat.isPrefixOf (c :: (a ++ b)) = true := by
      intro h
      rw [List.isPrefixOf_iff_prefix] at h ⊢
      exact h.trans (List.prefix_append (c :: a) b)
    show _ ≤ occurrences pat (c :: (a ++ b))
    rw [occurrences_cons, occurrences_cons]
    by_cases h : pat.isPrefixOf (c :: a) = true
    · rw [if_pos h, if_pos (hp h)]
      omega
    · rw [if_neg h]
      omega

theorem countBr_append_br (s t : String) :
    countBr (s ++ "<br/>" ++ t) = countBr s + 1 + countBr t := by
  unfold countBr
  have h : (s ++ "<br/>" ++ t).data = s.data ++ (['<', 'b', 'r', '/', '>'] ++ t.data) := by
    simp [String.data_append]
  rw [h]
  exact occurrences_br_sep s.data t.data

theorem countBr_joinBr :
    ∀ (ts : List String),
      countBr (joinBr ts) = (ts.length - 1) + (ts.map countBr).sum
  | [] => by simp [joinBr, countBr, occurrences]
  | [s] => by simp [joinBr]
  | s :: t :: rest => by
    have ih := countBr_joinBr (t :: rest)
    simp only [joinBr]
    rw [countBr_append_br, ih]
    simp only [List.length_cons, List.map_cons, List.sum_cons]
    omega

theorem countBr_concatAll :
    ∀ (ts : List String), (ts.map countBr).sum ≤ countBr (concatAll ts)
  | [] => by simp [concatAll, countBr, occurrences]
  | s :: rest => by
    have ih := countBr_concatAll rest
    have h := occurrences_append_ge "<br/>".data s.data (concatAll rest).data
    simp only [concatAll, List.map_cons, List.sum_cons]
    unfold countBr at ih ⊢
    rw [String.data_append]
    omega

/-! ## Structure of the result of the table walker -/

theorem getRowText_structure (w : Word) (row : Row) (rd : RowData)
    (h : getRowText w row = some rd) :
    rd.Content.length = row.cells.length ∧ rd.HtmlContent.length = row.cells.length ∧
    ∀ (k : Nat) (c : Cell), row.cells[k]? = some c →
      ∃ raw html, getCellText w c = some (raw, html) ∧
        rd.Content[k]? = some raw ∧ rd.HtmlContent[k]? = some html := by
  rw [getRowText_eq, rowCells] at h
  cases hcs : allSome (row.cells.map (getCellText w)) with
  | none => simp [hcs] at h
  | some cs =>
    simp only [hcs, Option.map_some', Option.some.injEq] at h
    subst h
    have hl := allSome_length _ _ hcs
    simp only [List.length_map] at hl
    refine ⟨by simp [RowData.ofCells, hl], by simp [RowData.ofCells, hl], ?_⟩
    intro k c hk
    have hk2 : (row.cells.map (getCellText w))[k]? = some (getCellText w c) := by
      simp [List.getElem?_map, hk]
    obtain ⟨b, hb, hget⟩ := allSome_getElem? _ _ hcs k _ hk2
    exact ⟨b.1, b.2, hb, by simp [RowData.ofCells, List.getElem?_map, hget],
      by simp [RowData.ofCells, List.getElem?_map, hget]⟩

theorem getRowsData_structure (w : Word) (rows : List Row) (td : TableData)
    (h : getRowsData w rows = some td) :
    td.Rows.length = rows.length ∧
    ∀ (j : Nat) (row : Row), rows[j]? = some row →
      ∃ rd, td.Rows[j]? = some rd ∧ getRowText w row = some rd := by
  rw [getRowsData_eq] at h
  cases hrs : allSome (rows.map (getRowText w)) with
  | none => simp [hrs] at h
  | some rds =>
    simp only [hrs, Option.map_some', Option.some.injEq] at h
    subst h
    have hl := allSome_length _ _ hrs
    simp only [List.length_map] at hl
    refine ⟨hl, ?_⟩
    intro j row hj
    have hj2 : (rows.map (getRowText w))[j]? = some (getRowText w row) := by
      simp [List.getElem?_map, hj]
    obtain ⟨b, hb, hget⟩ := allSome_getElem? _ _ hrs j _ hj2
    exact ⟨b, hget, hb⟩

theorem getTableData_tables (w w' : Word) (h : getTableData w = some w') :
    ∃ tds : List TableData, w'.Tables = w.Tables ++ tds ∧
      w'.oles = w.oles ∧ w'.images = w.images ∧ w'.doc = w.doc ∧
      tds.length = w.doc.tables.length ∧
      ∀ (i : Nat) (t : Table), w.doc.tables[i]? = some t →
        ∃ td, tds[i]? = some td ∧ getRowsData w t.rows = some td := by
  rw [getTableData_eq] at h
  cases hts : allSome (w.doc.tables.map (fun t => getRowsData w t.rows)) with
  | none => simp [hts] at h
  | some tds =>
    simp only [hts, Option.map_some', Option.some.injEq] at h
    subst h
    have hl := allSome_length _ _ hts
    simp only [List.length_map] at hl
    refine ⟨tds, rfl, rfl, rfl, rfl, hl, ?_⟩
    intro i t hi
    have hi2 : (w.doc.tables.map (fun t => getRowsData w t.rows))[i]?
        = some (getRowsData w t.rows) := by
      simp [List.getElem?_map, hi]
    obtain ⟨b, hb, hget⟩ := allSome_getElem? _ _ hts i _ hi2
    exact ⟨b, hget, hb⟩

theorem runText_isSome (w : Word) (r : Run) (h : r.resolved w) :
    (runText w r).isSome = true := by
  unfold runText
  cases hd : r.drawingInline with
  | some ds => simp
  | none =>
    cases ho : r.oleObjects with
    | none => simp
    | some os =>
      have hall := h hd os ho
      by_cases hne : os = []
      · subst hne; simp [List.foldlM]
      · have hex : ∀ o, o ∈ os → ∃ v, w.olesAt o.oleRid = some v := fun o ho =>
          Option.isSome_iff_exists.mp (hall o ho)
        simp only
        rw [foldlM_last (fun o : OleObject => w.olesAt o.oleRid) os hne "" hex]
        exact hall _ (List.getLast_mem hne)

theorem getCellText_isSome (w : Word) (c : Cell)
    (h : ∀ p, p ∈ c.paragraphs → ∀ r, r ∈ p.runs → r.resolved w) :
    (getCellText w c).isSome = true := by
  rw [getCellText_eq, paragraphTexts, Option.isSome_map']
  apply allSome_isSome
  intro a ha
  obtain ⟨p, hp, rfl⟩ := List.mem_map.mp ha
  rw [paragraphText, Option.isSome_map']
  apply allSome_isSome
  intro b hb
  obtain ⟨r, hr, rfl⟩ := List.mem_map.mp hb
  exact runText_isSome w r (h p hp r hr)

theorem getTableData_isSome (w : Word) (h : w.resolved) :
    (getTableData w).isSome = true := by
  rw [getTableData_eq, Option.isSome_map']
  apply allSome_isSome
  intro a ha
  obtain ⟨t, ht, rfl⟩ := List.mem_map.mp ha
  rw [getRowsData_eq, Option.isSome_map']
  apply allSome_isSome
  intro b hb
  obtain ⟨row, hrow, rfl⟩ := List.mem_map.mp hb
  rw [getRowText_eq, rowCells, Option.isSome_map']
  apply allSome_isSome
  intro c hc
  obtain ⟨cell, hcell, rfl⟩ := List.mem_map.mp hc
  exact getCellText_isSome w cell (h t ht row hrow cell hcell)

theorem allSome_map_const {α β : Type} (f : α → Option β) (b : β) :
    ∀ (l : List α), (∀ x, x ∈ l → f x = some b) →
      allSome (l.map f) = some (List.replicate l.length b)
  | [], _ => rfl
  | x :: rest, h => by
    have hx : f x = some b := h x (List.mem_cons_self _ _)
    have ih := allSome_map_const f b rest (fun y hy => h y (List.mem_cons_of_mem _ hy))
    simp only [List.map_cons, hx, allSome, ih, List.length_cons, List.replicate_succ]

theorem concatAll_replicate_empty : ∀ (n : Nat), concatAll (List.replicate n "") = ""
  | 0 => rfl
  | n + 1 => by
    simp only [List.replicate_succ, concatAll, concatAll_replicate_empty n]
    rfl

theorem joinBr_replicate_empty :
    ∀ (n : Nat), joinBr (List.replicate n "") = breaks (n - 1)
  | 0 => rfl
  | 1 => rfl
  | n + 2 => by
    have ih := joinBr_replicate_empty (n + 1)
    simp only [List.replicate_succ] at ih ⊢
    simp only [joinBr, ih, Nat.add_sub_cancel, breaks]
    rfl

/-- A cell all of whose runs emit the empty string holds the empty string in
its plain text and only the separators of its paragraphs in its HTML text. -/
theorem getCellText_no_content (w : Word) (c : Cell)
    (h : ∀ p, p ∈ c.paragraphs → ∀ r, r ∈ p.runs → runText w r = some "") :
    getCellText w c = some ("", breaks (c.paragraphs.length - 1)) := by
  have hp : ∀ p, p ∈ c.paragraphs → paragraphText w p = some "" := by
    intro p hmem
    rw [paragraphText, allSome_map_const (runText w) "" p.runs (h p hmem)]
    simp [concatAll_replicate_empty]
  rw [getCellText_eq, paragraphTexts, allSome_map_const (paragraphText w) "" c.paragraphs hp]
  simp [concatAll_replicate_empty, joinBr_replicate_empty]

/-- C1, as stated, fails in its last part: a cell with no content that has
two paragraphs yields the entry `<br/>` in `HtmlContent`, not the empty
string. -/
theorem empty_cell_counterexample :
    getCellText NewWord { paragraphs := [{ runs := [] }, { runs := [] }] }
      = some ("", "<br/>") ∧
    (getTableData { NewWord with doc :=
        { tables := [{ rows := [{ cells := [{ paragraphs := [{ runs := [] }, { runs := [] }] }] }] }],
          oleObjectPaths := [], images := [] } }).map
      (fun w => w.Tables.map (fun td => td.Rows.map (fun rd => (rd.Content, rd.HtmlContent))))
      = some [[([""], ["<br/>"])]] ∧
    "<br/>" ≠ "" := by
  decide

/-- C1, amended. For a freshly created word whose document has all its
equation identifiers resolved, `getTableData` returns a result; and whenever
it returns one, the result has exactly as many tables as the document, in
document order; its i-th table has exactly as many rows as the i-th table
of the document, in order; and in every row both `Content` and
`HtmlContent` have exactly as many entries as the row has cells, the k-th
entries being the two texts `getCellText` returns for the k-th cell.  A cell
with no content (every run, if there is one, emits the empty string) yields
an entry, never a missing one: the empty string in `Content` and, in
`HtmlContent`, only the `N - 1` break markers between its `N` paragraphs,
so the empty string when it has at most one paragraph. -/
theorem getTableData_structure (w : Word) (hfresh : w.Tables = []) :
    (w.resolved → (getTableData w).isSome = true) ∧
    (∀ w', getTableData w = some w' →
      w'.Tables.length = w.doc.tables.length ∧
      ∀ (i : Nat) (t : Table), w.doc.tables[i]? = some t →
        ∃ td, w'.Tables[i]? = some td ∧ td.Rows.length = t.rows.length ∧
          ∀ (j : Nat) (row : Row), t.rows[j]? = some row →
            ∃ rd, td.Rows[j]? = some rd ∧
              rd.Content.length = row.cells.length ∧
              rd.HtmlContent.length = row.cells.length ∧
              ∀ (k : Nat) (c : Cell), row.cells[k]? = some c →
                ∃ raw html, getCellText w c = some (raw, html) ∧
                  rd.Content[k]? = some raw ∧ rd.HtmlContent[k]? = some html) ∧
    (∀ c : Cell, (∀ p, p ∈ c.paragraphs → ∀ r, r ∈ p.runs → runText w r = some "") →
      getCellText w c = some ("", breaks (c.paragraphs.length - 1)) ∧
      (c.paragraphs.length ≤ 1 → getCellText w c = some ("", ""))) := by
  refine ⟨getTableData_isSome w, ?_, ?_⟩
  · intro w' h
    obtain ⟨tds, htab, _, _, _, hlen, hidx⟩ := getTableData_tables w w' h
    rw [hfresh, List.nil_append] at htab
    rw [htab]
    refine ⟨hlen, ?_⟩
    intro i t hi
    obtain ⟨td, htd, hrows⟩ := hidx i t hi
    obtain ⟨hrl, hridx⟩ := getRowsData_structure w t.rows td hrows
    refine ⟨td, htd, hrl, ?_⟩
    intro j row hj
    obtain ⟨rd, hrd, hrow⟩ := hridx j row hj
    obtain ⟨h1, h2, h3⟩ := getRowText_structure w row rd hrow
    exact ⟨rd, hrd, h1, h2, h3⟩
  · intro c hc
    have h := getCellText_no_content w c hc
    refine ⟨h, fun hle => ?_⟩
    have h0 : c.paragraphs.length - 1 = 0 := by omega
    rw [h, h0]
    rfl

/-- C1, amended, at the sample document: the result has one table of two
rows, with three entries in the first row (the empty cell gives `""`) and
one in the second; and a cell of three paragraphs without runs gives `""`
and `<br/><br/>`. -/
theorem getTableData_structure_witness :
    (∃ w', getTableData { NewWord with doc := sampleDocument } = some w' ∧
      w'.Tables.length = 1 ∧
      (w'.Tables.map (fun td => td.Rows.map (fun rd => (rd.Content, rd.HtmlContent))))
        = [[(["A", "", "CD"], ["A", "", "C<br/>D"]), (["B"], ["B"])]]) ∧
    getCellText { NewWord with doc := sampleDocument }
        { paragraphs := [{ runs := [] }, { runs := [] }, { runs := [] }] }
      = some ("", "<br/><br/>") := by
  have h := getTableData_structure { NewWord with doc := sampleDocument } rfl
  refine ⟨⟨_, rfl, (h.2.1 _ rfl).1, by decide⟩, ?_⟩
  exact (h.2.2 { paragraphs := [{ runs := [] }, { runs := [] }, { runs := [] }] }
    (by simp)).1

/-! ## The two buffers of a cell -/

theorem length_joinBr :
    ∀ (ts : List String),
      (joinBr ts).length = (concatAll ts).length + 5 * (ts.length - 1) ∧
      (joinBr ts).utf8ByteSize = (concatAll ts).utf8ByteSize + 5 * (ts.length - 1)
  | [] => by simp [joinBr, concatAll]
  | [s] => by simp [joinBr, concatAll]
  | s :: t :: rest => by
    obtain ⟨ih1, ih2⟩ := length_joinBr (t :: rest)
    have hb : String.utf8ByteSize "<br/>" = 5 := by decide
    have happ : ∀ a b : String, (a ++ b).utf8ByteSize = a.utf8ByteSize + b.utf8ByteSize := by
      intro a b
      show String.utf8Len (a.data ++ b.data) = _
      exact String.utf8Len_append _ _
    have hc : concatAll (s :: t :: rest) = s ++ concatAll (t :: rest) := rfl
    have hj : joinBr (s :: t :: rest) = s ++ "<br/>" ++ joinBr (t :: rest) := rfl
    have hl : String.length "<br/>" = 5 := by decide
    rw [hc, hj]
    constructor
    · rw [String.length_append, String.length_append, String.length_append, ih1, hl]
      simp only [List.length_cons]
      omega
    · rw [happ, happ, happ, ih2, hb]
      simp only [List.length_cons]
      omega

/-- C9. For every cell, with `p_1 .. p_N` its per-paragraph texts (each the
in-order concatenation of what the runs of the paragraph emit),
`getCellText` returns `plainText = p_1 ++ ... ++ p_N` and
`htmlText = p_1 ++ "<br/>" ++ p_2 ++ ... ++ "<br/>" ++ p_N` (and panics
exactly when one of the runs does); a run appends the same text to both
buffers; so for `N >= 1` the HTML text is `5 * (N - 1)` longer than the
plain text, in characters and in bytes; and the paragraphs `"A"` and `"B"`
give `"AB"` and `"A<br/>B"`. -/
theorem getCellText_buffers (w : Word) (cell : Cell) :
    getCellText w cell
      = (paragraphTexts w cell).map (fun ps => (concatAll ps, joinBr ps)) ∧
    (∀ ps, paragraphTexts w cell = some ps → ps.length = cell.paragraphs.length) ∧
    (∀ (r : Run) (rs : List Run) (bufs : String × String) (text : String),
      runText w r = some text →
        runsLoop w (r :: rs) bufs = runsLoop w rs (bufs.1 ++ text, bufs.2 ++ text)) ∧
    (∀ plain html, getCellText w cell = some (plain, html) → 1 ≤ cell.paragraphs.length →
      html.length = plain.length + 5 * (cell.paragraphs.length - 1) ∧
      html.utf8ByteSize = plain.utf8ByteSize + 5 * (cell.paragraphs.length - 1)) ∧
    getCellText w (textCell ["A", "B"]) = some ("AB", "A<br/>B") := by
  have hlen : ∀ ps, paragraphTexts w cell = some ps → ps.length = cell.paragraphs.length := by
    intro ps hps
    have := allSome_length _ _ hps
    simpa using this
  refine ⟨getCellText_eq w cell, hlen, fun r rs bufs text h => runsLoop_cons w r rs bufs text h,
    ?_, rfl⟩
  intro plain html h _
  rw [getCellText_eq] at h
  cases hps : paragraphTexts w cell with
  | none => simp [hps] at h
  | some ps =>
    simp only [hps, Option.map_some', Option.some.injEq, Prod.mk.injEq] at h
    obtain ⟨h1, h2⟩ := h
    subst h1 h2
    rw [← hlen ps hps]
    exact length_joinBr ps

/-- C9, at a cell of three paragraphs `"A"`, `"B"`, `"C"`: the HTML text is
ten characters longer than the plain text. -/
theorem getCellText_buffers_witness :
    getCellText NewWord (textCell ["A", "B", "C"]) = some ("ABC", "A<br/>B<br/>C") ∧
    String.length "A<br/>B<br/>C" = String.length "ABC" + 5 * (3 - 1) :=
  ⟨by decide,
   ((getCellText_buffers NewWord (textCell ["A", "B", "C"])).2.2.2.1
      "ABC" "A<br/>B<br/>C" (by decide) (by decide)).1⟩

/-! ## The break markers of a cell -/

/-- C8, as stated, fails: a cell with one paragraph whose only run has the
text `<br/>` has the marker once in its HTML text, not `1 - 1` times, and
once in its plain text, not zero times. -/
theorem break_count_counterexample :
    getCellText NewWord (textCell ["<br/>"]) = some ("<br/>", "<br/>") ∧
    (textCell ["<br/>"]).paragraphs.length = 1 ∧
    countBr "<br/>" ≠ 1 - 1 ∧ countBr "<br/>" ≠ 0 := by
  decide

/-- The break markers of the two texts of a cell, counted against its
content: the HTML text has them `N - 1` times more than the texts of the
paragraphs have them in total, and the plain text has exactly those of the
concatenated content. -/
theorem getCellText_countBr (w : Word) (cell : Cell) (ps : List String)
    (hps : paragraphTexts w cell = some ps) :
    getCellText w cell = some (concatAll ps, joinBr ps) ∧
    ps.length = cell.paragraphs.length ∧
    countBr (joinBr ps) = (cell.paragraphs.length - 1) + (ps.map countBr).sum ∧
    (ps.map countBr).sum ≤ countBr (concatAll ps) := by
  have hl : ps.length = cell.paragraphs.length := by
    have := allSome_length _ _ hps
    simpa using this
  have hc := countBr_joinBr ps
  rw [hl] at hc
  refine ⟨?_, hl, hc, countBr_concatAll ps⟩
  rw [getCellText_eq, hps]
  rfl

/-- C8, amended. For every cell with `N` paragraphs whose content holds no
break marker (the in-order concatenation of what its runs emit contains no
`<br/>`), `getCellText` returns an HTML text that contains the marker
exactly `N - 1` times (none for `N = 0`) and a plain text that contains it
zero times. -/
theorem getCellText_break_count (w : Word) (cell : Cell) (ps : List String)
    (hps : paragraphTexts w cell = some ps) (hfree : countBr (concatAll ps) = 0) :
    ∃ plain html, getCellText w cell = some (plain, html) ∧
      countBr html = cell.paragraphs.length - 1 ∧ countBr plain = 0 := by
  obtain ⟨hget, _, hc, hle⟩ := getCellText_countBr w cell ps hps
  refine ⟨concatAll ps, joinBr ps, hget, ?_, hfree⟩
  omega

/-- C8, amended, at a cell of three paragraphs `A`, `B`, `C`: two markers in
the HTML text, none in the plain text. -/
theorem getCellText_break_count_witness :
    ∃ plain html, getCellText NewWord (textCell ["A", "B", "C"]) = some (plain, html) ∧
      countBr html = 3 - 1 ∧ countBr plain = 0 :=
  getCellText_break_count NewWord (textCell ["A", "B", "C"]) ["A", "B", "C"]
    (by decide) (by decide)

/-! ## What one run contributes -/

/-- C5. For every run that has no inline drawing (its `DrawingInline()` is
the nil slice) and has `k >= 1` embedded equation objects whose identifiers
are all keys of the equation map, each entry holding the address of its
resolved string as every entry that `parseOle` leaves does
(`parseOle_entries`), the run appends to both buffers exactly the resolved
string of its last object: neither its literal text nor the strings of the
earlier objects. -/
theorem runText_equation (w : Word) (r : Run) (os : List OleObject) (hne : os ≠ [])
    (hd : r.drawingInline = none) (ho : r.oleObjects = some os)
    (hkeys : ∀ o, o ∈ os → ∃ v, w.oles o.oleRid = some (some v)) :
    ∃ v, w.oles (os.getLast hne).oleRid = some (some v) ∧ runText w r = some v ∧
      ∀ (rs : List Run) (bufs : String × String),
        runsLoop w (r :: rs) bufs = runsLoop w rs (bufs.1 ++ v, bufs.2 ++ v) := by
  obtain ⟨v, hv⟩ := hkeys _ (List.getLast_mem hne)
  have hex : ∀ o, o ∈ os → ∃ u, w.olesAt o.oleRid = some u := by
    intro o hmem
    obtain ⟨u, hu⟩ := hkeys o hmem
    exact ⟨u, by simp [Word.olesAt, hu]⟩
  have hrun : runText w r = some v := by
    unfold runText
    simp only [hd, ho]
    rw [foldlM_last (fun o : OleObject => w.olesAt o.oleRid) os hne "" hex]
    simp [Word.olesAt, hv]
  exact ⟨v, hv, hrun, fun rs bufs => runsLoop_cons w r rs bufs v hrun⟩

/-- C5, at a run with the text `t` and two objects `rId1`, `rId2`:
only `[y]`, the string of `rId2`, is emitted. -/
theorem runText_equation_witness :
    ∃ v, sampleWord.oles "rId2" = some (some v) ∧
      runText sampleWord
        { drawingInline := none, oleObjects := some [⟨"rId1"⟩, ⟨"rId2"⟩], text := "t" }
        = some v ∧ v = "[y]" := by
  obtain ⟨v, h1, h2, _⟩ := runText_equation sampleWord
    { drawingInline := none, oleObjects := some [⟨"rId1"⟩, ⟨"rId2"⟩], text := "t" }
    [⟨"rId1"⟩, ⟨"rId2"⟩] (by simp) rfl rfl
    (by
      intro o ho
      simp only [List.mem_cons, List.mem_singleton, List.not_mem_nil, or_false] at ho
      rcases ho with e | e
      · subst e; exact ⟨"[x^2]", by decide⟩
      · subst e; exact ⟨"[y]", by decide⟩)
  refine ⟨v, h1, h2, ?_⟩
  have h3 : sampleWord.oles "rId2" = some (some "[y]") := by decide
  have h4 : (List.getLast [(⟨"rId1"⟩ : OleObject), ⟨"rId2"⟩] (by simp)).oleRid = "rId2" := rfl
  rw [h4, h3] at h1
  simp only [Option.some.injEq] at h1
  exact h1.symm

/-- C6. For every run whose `DrawingInline()` holds `k >= 1` drawings,
whatever its objects and its text, the run appends to both buffers exactly
the one string `<img src='U' style='width:W;height:H'/>`, with `U` the value
of the image map at the identifier of the last drawing (the empty string
when the identifier has no entry) and `W`, `H` the width and height of that
last drawing. -/
theorem runText_image (w : Word) (r : Run) (ds : List InlineDrawing) (hne : ds ≠ [])
    (hd : r.drawingInline = some ds) :
    let di := ds.getLast hne
    let U := match w.images di.relID with
      | some uri => uri
      | none => ""
    let tag := "<img src='" ++ U ++ "' style='width:" ++ di.width ++ ";height:"
      ++ di.height ++ "'/>"
    runText w r = some tag ∧
      ∀ (rs : List Run) (bufs : String × String),
        runsLoop w (r :: rs) bufs = runsLoop w rs (bufs.1 ++ tag, bufs.2 ++ tag) := by
  intro di U tag
  have hrun : runText w r = some tag := by
    unfold runText
    simp only [hd]
    rw [foldl_last (fun di : InlineDrawing => imgTag (w.imagesAt di.relID) di.width di.height)
      ds hne ""]
    have hU : w.imagesAt (ds.getLast hne).relID = U := by
      show (w.images di.relID).getD "" = U
      cases hi : w.images di.relID with
      | none => simp [U, hi]
      | some u => simp [U, hi]
    rw [hU]
    rfl
  exact ⟨hrun, fun rs bufs => runsLoop_cons w r rs bufs tag hrun⟩

/-- C6, at a run with one drawing of width `100px` and height `50px` whose
identifier resolves to `https://cdn/a.png` (and with objects and text that
are ignored), and at a run with two drawings of which the last has no entry
in the image map. -/
theorem runText_image_witness :
    runText sampleWord
      { drawingInline := some [⟨"rId7", "100px", "50px"⟩],
        oleObjects := some [⟨"rId1"⟩], text := "t" }
      = some "<img src='https://cdn/a.png' style='width:100px;height:50px'/>" ∧
    runText sampleWord
      { drawingInline := some [⟨"rId7", "100px", "50px"⟩, ⟨"rId8", "1cm", "2cm"⟩],
        oleObjects := none, text := "" }
      = some "<img src='' style='width:1cm;height:2cm'/>" :=
  ⟨(runText_image sampleWord
      { drawingInline := some [⟨"rId7", "100px", "50px"⟩],
        oleObjects := some [⟨"rId1"⟩], text := "t" }
      [⟨"rId7", "100px", "50px"⟩] (by simp) rfl).1,
   by decide⟩

/-- C7. For every run that contains no inline drawing and no embedded
equation object (its `DrawingInline()` and its `OleObjects()` are the nil
slice), the run is rendered as plain text and appends exactly its literal
text to both buffers; so a document with one table, one row and one
single-paragraph cell whose only run is such a run with the text `t` yields
the result `[[(t, t)]]`. -/
theorem runText_text (w : Word) (r : Run) (hd : r.drawingInline = none)
    (ho : r.oleObjects = none) :
    runText w r = some r.text ∧
    (∀ (rs : List Run) (bufs : String × String),
      runsLoop w (r :: rs) bufs = runsLoop w rs (bufs.1 ++ r.text, bufs.2 ++ r.text)) ∧
    (getTableData { w with Tables := [], doc := oneRunDocument r }).map (fun w' => w'.Tables)
      = some [{ Rows := [{ Content := [r.text], HtmlContent := [r.text] }] }] := by
  have hrun : ∀ w0 : Word, runText w0 r = some r.text := by
    intro w0
    unfold runText
    simp only [hd, ho]
  refine ⟨hrun w, fun rs bufs => runsLoop_cons w r rs bufs r.text (hrun w), ?_⟩
  simp [getTableData, tablesLoop, getRowsData, rowsLoop, getRowText, cellsLoop, getCellText,
    paragraphsLoop, runsLoop, oneRunDocument, hrun]

/-- C7, at the text `Hello`: `Content = ["Hello"]` and
`HtmlContent = ["Hello"]`. -/
theorem runText_text_witness :
    (getTableData { NewWord with doc := oneRunDocument (textRun "Hello") }).map
        (fun w' => w'.Tables.map (fun td => td.Rows.map (fun rd => (rd.Content, rd.HtmlContent))))
      = some [[(["Hello"], ["Hello"])]] := by
  have h := (runText_text NewWord (textRun "Hello") rfl rfl).2.2
  have e : ({ NewWord with Tables := [], doc := oneRunDocument (textRun "Hello") } : Word)
      = { NewWord with doc := oneRunDocument (textRun "Hello") } := rfl
  rw [e] at h
  cases hg : getTableData { NewWord with doc := oneRunDocument (textRun "Hello") } with
  | none => simp [hg] at h
  | some w' =>
    simp only [hg, Option.map_some', Option.some.injEq] at h
    simp [h, textRun]

/-! ## An identifier without entry in the equation map -/

/-- C10 fails on the code: for every cell with a run that is rendered as an
equation (its `DrawingInline()` is nil) and has an object whose identifier
has no entry in the equation map, `getCellText` panics, dereferencing the
nil pointer the map yields, instead of writing the empty string. -/
theorem getCellText_unresolved_panics (w : Word) (cell : Cell) (p : Paragraph) (r : Run)
    (os : List OleObject) (o : OleObject)
    (hp : p ∈ cell.paragraphs) (hr : r ∈ p.runs)
    (hd : r.drawingInline = none) (ho : r.oleObjects = some os) (hmem : o ∈ os)
    (hkey : w.oles o.oleRid = none) :
    runText w r = none ∧ getCellText w cell = none := by
  have hrun : runText w r = none := by
    unfold runText
    simp only [hd, ho]
    exact foldlM_none (fun o : OleObject => w.olesAt o.oleRid) os ""
      ⟨o, hmem, by simp [Word.olesAt, hkey]⟩
  refine ⟨hrun, ?_⟩
  rw [getCellText_eq, paragraphTexts]
  have hpar : paragraphText w p = none := by
    rw [paragraphText]
    have : allSome (p.runs.map (runText w)) = none :=
      allSome_none_of_mem _ (List.mem_map.mpr ⟨r, hr, hrun⟩)
    rw [this]
    rfl
  have : allSome (cell.paragraphs.map (paragraphText w)) = none :=
    allSome_none_of_mem _ (List.mem_map.mpr ⟨p, hp, hpar⟩)
  rw [this]
  rfl

/-- C10, at a cell with the paragraphs `A`, an equation `rId9` that the
equation map of `sampleWord` does not hold, and `B`: no text is returned,
while the same cell without the equation run is rendered. -/
theorem getCellText_unresolved_panics_witness :
    sampleWord.oles "rId9" = none ∧
    getCellText sampleWord
      { paragraphs := [{ runs := [textRun "A"] },
                       { runs := [{ drawingInline := none, oleObjects := some [⟨"rId9"⟩],
                                    text := "" }] },
                       { runs := [textRun "B"] }] } = none ∧
    getCellText sampleWord
      { paragraphs := [{ runs := [textRun "A"] }, { runs := [] }, { runs := [textRun "B"] }] }
      = some ("AB", "A<br/><br/>B") :=
  ⟨by decide,
   (getCellText_unresolved_panics sampleWord _
      { runs := [{ drawingInline := none, oleObjects := some [⟨"rId9"⟩], text := "" }] }
      { drawingInline := none, oleObjects := some [⟨"rId9"⟩], text := "" }
      [⟨"rId9"⟩] ⟨"rId9"⟩ (by simp) (by simp) rfl rfl (by simp) (by decide)).2,
   by decide⟩

/-! ## The resolver pools -/

/-- C2 fails on the code: with the identifier `rId1` twice in the list and
the two workers both testing the map before either stores, the converter is
called twice for `rId1` (and the uploader twice for `rId7`), although every
worker returns; nothing in `parseOle` or `parseImage` keeps the test and the
store of one worker from being interleaved with another worker's test.
Only when the workers run one after the other is there a single call. -/
theorem duplicate_identifier_resolved_twice (convert : String → String)
    (upload : String → String → String) :
    (olePool convert duplicateOlePaths interleavedSchedule).allDone = true ∧
    (olePool convert duplicateOlePaths interleavedSchedule).calls.map OleObjectPath.rid
      = ["rId1", "rId1"] ∧
    (imagePool upload duplicateImages interleavedSchedule).allDone = true ∧
    (imagePool upload duplicateImages interleavedSchedule).calls.map ImageRef.relID
      = ["rId7", "rId7"] ∧
    (olePool convert duplicateOlePaths (seqSchedule 2)).calls.map OleObjectPath.rid
      = ["rId1"] ∧
    (imagePool upload duplicateImages (seqSchedule 2)).calls.map ImageRef.relID
      = ["rId7"] := by
  refine ⟨?_, ?_, ?_, ?_, ?_, ?_⟩ <;>
    simp [olePool, imagePool, PoolState.run, PoolState.step, PoolState.init,
      duplicateOlePaths, duplicateImages, interleavedSchedule, seqSchedule, GoMap.set,
      GoMap.empty, PoolState.allDone, Pc.isDone, PoolState.storeInProgress, Pc.isWriting]

/-- C3 fails on the code: the workers store into the one map without a
lock, so with the distinct identifiers `rId1` and `rId2` in the list and the
two stores overlapping, `parseOle` returns with `rId1` missing from the
equation map (and `parseImage` with `rId7` missing from the image map), or,
when the runtime notices the overlap, the process is aborted and `parseOle`
does not return; `parser` then hands `getTableData` a map without `rId1`
and the cell that uses `rId1` panics.  Only when the workers run one after
the other does every identifier of the list have its entry. -/
theorem overlapping_stores_lose_entry (convert : String → String)
    (upload : String → String → String) :
    (parseOle convert NewWord distinctOlePaths racingSchedule).map
        (fun w => (w.oles "rId1", w.oles "rId2"))
      = some (none, some (some (replaceDollars (convert "ole2.bin")))) ∧
    (parseImage upload NewWord distinctImages racingSchedule).map
        (fun w => ((w.images "rId7").isSome, (w.images "rId8").isSome))
      = some (false, true) ∧
    (parseOle convert NewWord distinctOlePaths detectedSchedule).isSome = false ∧
    (parseOle convert { NewWord with doc := equationDocument } equationDocument.oleObjectPaths
        racingSchedule).isSome = true ∧
    (parser convert upload equationDocument racingSchedule []).isSome = false ∧
    (parseOle convert NewWord distinctOlePaths (seqSchedule 2)).map
        (fun w => (w.oles "rId1", w.oles "rId2"))
      = some (some (some (replaceDollars (convert "ole1.bin"))),
          some (some (replaceDollars (convert "ole2.bin")))) ∧
    (parser convert upload equationDocument (seqSchedule 2) []).map
        (fun w => w.Tables.map (fun td => td.Rows.map (fun rd => (rd.Content, rd.HtmlContent))))
      = some [[([replaceDollars (convert "ole1.bin")],
          [replaceDollars (convert "ole1.bin")])]] := by
  refine ⟨?_, ?_, ?_, ?_, ?_, ?_, ?_⟩ <;>
    simp [parser, parseOle, parseImage, olePool, imagePool, PoolState.run, PoolState.step,
      PoolState.init, distinctOlePaths, distinctImages, racingSchedule, detectedSchedule,
      seqSchedule, equationDocument, GoMap.set, GoMap.empty, PoolState.allDone, Pc.isDone,
      PoolState.storeInProgress, Pc.isWriting, oleResolve, NewWord, getTableData, tablesLoop,
      getRowsData, rowsLoop, getRowText, cellsLoop, getCellText, paragraphsLoop, runsLoop,
      runText, Word.olesAt, List.foldlM]

/-! ## The value stored for an equation -/

theorem stringsReplace1_absent (s old new : String)
    (h : stringsIndex old.data s.data = none) : stringsReplace1 s old new = s := by
  unfold stringsReplace1
  rw [h]

/-- C4. For every string `s` returned by the converter, the value an
equation worker stores is `s` with its first two left-to-right,
non-overlapping occurrences of `$$` replaced, the first by `[` and the
second by `]`, every other character unchanged; a string without `$$` is
stored unchanged; and for every body without the character `$` the output
`$$` + body + `$$` is stored as `[` + body + `]`, as in `$$x^2$$`, stored as
`[x^2]`. -/
theorem replaceDollars_spec :
    (∀ (convert : String → String) (now : Int) (o : OleObjectPath),
      oleResolve convert now o = some (replaceDollars (convert o.path))) ∧
    (∀ s : String, replaceDollars s = replaceFirstTwoDollars s) ∧
    (∀ s : String, stringsIndex "$$".data s.data = none → replaceDollars s = s) ∧
    (∀ body : String, '$' ∉ body.data →
      replaceDollars ("$$" ++ body ++ "$$") = "[" ++ body ++ "]") ∧
    replaceDollars "$$x^2$$" = "[x^2]" ∧
    replaceDollars "a$$b" = "a[b" ∧
    replaceDollars "$$a$$ and $$b$$" = "[a] and $$b$$" := by
  refine ⟨fun _ _ _ => rfl, replaceDollars_eq_scan, ?_, replaceDollars_delimited,
    by decide, by decide, by decide⟩
  intro s h
  unfold replaceDollars
  rw [stringsReplace1_absent s "$$" "[" h, stringsReplace1_absent s "$$" "]" h]

/-- C4, at the body `x^2`, which has no `$`. -/
theorem replaceDollars_spec_witness :
    '$' ∉ "x^2".data ∧ replaceDollars ("$$" ++ "x^2" ++ "$$") = "[" ++ "x^2" ++ "]" :=
  ⟨by decide, replaceDollars_spec.2.2.2.1 "x^2" (by decide)⟩

end OfficeParser
